import Mathlib

/-!
Verification of the tsumucoin coin-tracker core logic.

The numeric semantics of the Python source (src/coin_tracker.py) is embedded
over the exact rationals: every arithmetic value that the program manipulates
in the fragments under study is an int or a float holding a small decimal
number, and the operations involved (comparison, subtraction, division by a
positive value, rounding to a fixed number of decimal places, nearest-element
selection) are modelled exactly over ℚ.  Float special values (NaN and the
infinities), which the snap function tests for explicitly, are modelled by the
dedicated type FVal.
-/

/-- Truncation toward zero on a rational, as Python int() applied to a
numeric value. -/
def truncQ (q : ℚ) : ℤ := if q < 0 then ⌈q⌉ else ⌊q⌋

/-- Rounding to the nearest integer with ties going to the even neighbour,
as Python round() on an exact value. -/
def roundHalfEven (q : ℚ) : ℤ :=
  if q - ⌊q⌋ < 1/2 then ⌊q⌋
  else if (1 : ℚ)/2 < q - ⌊q⌋ then ⌊q⌋ + 1
  else if Even ⌊q⌋ then ⌊q⌋ else ⌊q⌋ + 1

/-- Python round(x, n): round to n decimal places. -/
def roundTo (n : ℕ) (q : ℚ) : ℚ := (roundHalfEven (q * 10 ^ n) : ℚ) / 10 ^ n

/-- COIN_MULTIPLIERS from the source: the fixed table of canonical boost
multipliers. -/
def COIN_MULTIPLIERS : List ℚ := [1.1, 1.3, 1.5, 2, 2.5, 3, 4, 5, 6, 11, 21, 51]

/-- Python abs() on an exact rational value. -/
def absQ (q : ℚ) : ℚ := if q < 0 then -q else q

/-- Python min(xs, key) over a non-empty list b :: xs: a left scan that
replaces the current best only on a strictly smaller key, so the first
element attaining the minimal key wins. -/
def pyMinBy (key : ℚ → ℚ) (b : ℚ) (xs : List ℚ) : ℚ :=
  xs.foldl (fun best m => if key m < key best then m else best) b

/-- snap_rate_to_multiplier from the source, on a finite (rational) float
value: non-positive input passes through unchanged, otherwise the table
element with minimal absolute distance is returned. -/
def snapQ (rate : ℚ) : ℚ :=
  if rate ≤ 0 then rate
  else
    match COIN_MULTIPLIERS with
    | [] => rate
    | m :: ms => pyMinBy (fun x => absQ (x - rate)) m ms

theorem absQ_eq_abs (q : ℚ) : absQ q = |q| := by
  rcases lt_or_le q 0 with h | h
  · rw [absQ, if_pos h, abs_of_neg h]
  · rw [absQ, if_neg (not_lt.mpr h), abs_of_nonneg h]

/-- A float value as tested by snap_rate_to_multiplier: a finite rational,
NaN, or one of the two infinities. -/
inductive FVal where
  | finite (q : ℚ)
  | nan
  | inf
  | neginf
deriving DecidableEq

/-- snap_rate_to_multiplier from the source, on all float values.  The
source guard (rate <= 0 or isnan(rate) or isinf(rate)) passes NaN and the
infinities through (NaN because the isnan test fires, +inf because the isinf
test fires, -inf because -inf <= 0 fires); a finite value goes through the
rational case. -/
def snap_rate_to_multiplier : FVal → FVal
  | FVal.nan => FVal.nan
  | FVal.inf => FVal.inf
  | FVal.neginf => FVal.neginf
  | FVal.finite q => FVal.finite (snapQ q)

/-- A stored record, as built by calculate_record: the five fields in
source order. -/
structure Record where
  base : ℤ
  boost : ℤ
  final : ℤ
  rate_raw : ℚ
  rate : ℚ
deriving DecidableEq

/-- calculate_record from the source. -/
def calculate_record (base_coin boost_coin : ℚ) (use_5to4 use_plus_coin : Bool) :
    Record :=
  let adjust : ℚ := (if use_5to4 then 1800 else 0) + (if use_plus_coin then 500 else 0)
  let final_coin := boost_coin - adjust
  let final_coin := if final_coin < 0 then 0 else final_coin
  let rate_raw := if base_coin > 0 then boost_coin / base_coin else 0
  let rate := snapQ rate_raw
  { base := truncQ base_coin
    boost := truncQ boost_coin
    final := truncQ final_coin
    rate_raw := roundTo 6 rate_raw
    rate := roundTo 3 rate }

/-- The Python min scan splits its input into a strict prefix on which the
key is strictly larger, the returned element, and a suffix on which the key
is at least as large; moreover the key of the result is at most the key of
the initial best. -/
theorem pyMinBy_split (key : ℚ → ℚ) (b : ℚ) (xs : List ℚ) :
    ∃ l₁ l₂, b :: xs = l₁ ++ pyMinBy key b xs :: l₂ ∧
      (∀ m ∈ l₁, key (pyMinBy key b xs) < key m) ∧
      (∀ m ∈ l₂, key (pyMinBy key b xs) ≤ key m) ∧
      key (pyMinBy key b xs) ≤ key b := by
  induction xs generalizing b with
  | nil =>
    exact ⟨[], [], by simp [pyMinBy], by simp, by simp, le_refl _⟩
  | cons x xs ih =>
    have hstep : pyMinBy key b (x :: xs) = pyMinBy key (if key x < key b then x else b) xs :=
      rfl
    by_cases h : key x < key b
    · rw [hstep, if_pos h]
      obtain ⟨l₁, l₂, heq, h₁, h₂, hb⟩ := ih x
      refine ⟨b :: l₁, l₂, ?_, ?_, h₂, le_of_lt (lt_of_le_of_lt hb h)⟩
      · rw [List.cons_append, ← heq]
      · intro m hm
        rcases List.mem_cons.mp hm with rfl | hm
        · exact lt_of_le_of_lt hb h
        · exact h₁ m hm
    · rw [hstep, if_neg h]
      obtain ⟨l₁, l₂, heq, h₁, h₂, hb⟩ := ih b
      cases l₁ with
      | nil =>
        simp only [List.nil_append, List.cons.injEq] at heq
        obtain ⟨hbr, hxs⟩ := heq
        refine ⟨[], x :: xs, ?_, by simp, ?_, hb⟩
        · simp [← hbr]
        · intro m hm
          rcases List.mem_cons.mp hm with rfl | hm
          · exact le_trans hb (not_lt.mp h)
          · exact h₂ m (hxs ▸ hm)
      | cons c l₁ =>
        simp only [List.cons_append, List.cons.injEq] at heq
        obtain ⟨hcb, hxs⟩ := heq
        have hrb : key (pyMinBy key b xs) < key b := by
          have hk : key b = key c := congrArg key hcb
          rw [hk]
          exact h₁ c (by simp)
        refine ⟨b :: x :: l₁, l₂, ?_, ?_, h₂, le_of_lt hrb⟩
        · simp only [List.cons_append]
          rw [← hxs]
        · intro m hm
          rcases List.mem_cons.mp hm with rfl | hm
          · exact hrb
          · rcases List.mem_cons.mp hm with rfl | hm
            · exact lt_of_lt_of_le hrb (not_lt.mp h)
            · exact h₁ m (List.mem_cons_of_mem c hm)

/-- Full specification of the Python min scan on a strictly ascending
list: the result is a member, its key is minimal, and among equal keys it is
the smallest (equivalently: first) qualifying element. -/
theorem pyMinBy_spec (key : ℚ → ℚ) (b : ℚ) (xs : List ℚ)
    (hsort : (b :: xs).Pairwise (· < ·)) :
    pyMinBy key b xs ∈ b :: xs ∧
    (∀ m ∈ b :: xs, key (pyMinBy key b xs) ≤ key m) ∧
    (∀ m ∈ b :: xs, key m = key (pyMinBy key b xs) → pyMinBy key b xs ≤ m) := by
  obtain ⟨l₁, l₂, heq, h₁, h₂, _⟩ := pyMinBy_split key b xs
  refine ⟨?_, ?_, ?_⟩
  · rw [heq]
    exact List.mem_append.mpr (Or.inr (List.mem_cons_self _ _))
  · intro m hm
    rw [heq] at hm
    rcases List.mem_append.mp hm with hm | hm
    · exact le_of_lt (h₁ m hm)
    · rcases List.mem_cons.mp hm with rfl | hm
      · exact le_refl _
      · exact h₂ m hm
  · intro m hm hkey
    rw [heq] at hm hsort
    rcases List.mem_append.mp hm with hm | hm
    · exact absurd hkey (ne_of_gt (h₁ m hm))
    · rcases List.mem_cons.mp hm with rfl | hm
      · exact le_refl _
      · have hpair := (List.pairwise_append.mp hsort).2.1
        exact le_of_lt (List.rel_of_pairwise_cons hpair hm)

/-- Unfolding of snapQ on a positive input. -/
theorem snapQ_pos (x : ℚ) (hx : 0 < x) :
    snapQ x =
      pyMinBy (fun m => absQ (m - x)) 1.1 [1.3, 1.5, 2, 2.5, 3, 4, 5, 6, 11, 21, 51] := by
  rw [snapQ, if_neg (not_le.mpr hx)]
  rfl

/-- The multiplier table is strictly ascending. -/
theorem coin_multipliers_sorted : COIN_MULTIPLIERS.Pairwise (· < ·) := by
  norm_num [COIN_MULTIPLIERS, List.pairwise_cons]

/-- The source's clamp (if x < 0 then 0 else x) equals max 0 x. -/
theorem ite_lt_zero_eq_max (x : ℚ) : (if x < 0 then (0 : ℚ) else x) = max 0 x := by
  rcases lt_or_le x 0 with h | h
  · rw [if_pos h, max_eq_left h.le]
  · rw [if_neg (not_lt.mpr h), max_eq_right h]

/-- C1: for every base > 0, boost > 0 and every pair of item flags,
calculate_record returns the record with base and boost truncated, final =
trunc(max(0, boost - (1800 if item a) - (500 if item b))), rate_raw =
boost/base rounded to 6 decimal places and rate = snap(boost/base) rounded
to 3 decimal places; in particular calculate_record 1000 2000 false false
gives base 1000, boost 2000, final 2000, rate_raw 2 and rate 2. -/
theorem C1_calculate_record_spec (base boost : ℚ) (a b : Bool)
    (hbase : 0 < base) (hboost : 0 < boost) :
    calculate_record base boost a b =
      { base := truncQ base
        boost := truncQ boost
        final := truncQ (max 0 (boost - ((if a then (1800 : ℚ) else 0) + if b then 500 else 0)))
        rate_raw := roundTo 6 (boost / base)
        rate := roundTo 3 (snapQ (boost / base)) } ∧
    calculate_record 1000 2000 false false =
      { base := 1000, boost := 2000, final := 2000, rate_raw := 2, rate := 2 } := by
  constructor
  · have hb : base > 0 := hbase
    simp only [calculate_record]
    rw [if_pos hb, ite_lt_zero_eq_max]
  · norm_num [calculate_record, snapQ, COIN_MULTIPLIERS, pyMinBy, absQ, truncQ,
      roundTo, roundHalfEven]

theorem C1_calculate_record_spec_witness :
    calculate_record 1000 2000 false false =
      { base := 1000, boost := 2000, final := 2000, rate_raw := 2, rate := 2 } :=
  (C1_calculate_record_spec 1000 2000 false false (by norm_num) (by norm_num)).2

/-- C2: for every positive x, snapQ x is a member of the multiplier table,
no table entry is strictly closer to x, ties are resolved to the smallest
(first, in the ascending table) qualifying entry, and snapQ (5/4) = 13/10. -/
theorem C2_snap_nearest (x : ℚ) (hx : 0 < x) :
    snapQ x ∈ COIN_MULTIPLIERS ∧
    (∀ m ∈ COIN_MULTIPLIERS, ¬ (|m - x| < |snapQ x - x|)) ∧
    (∀ m ∈ COIN_MULTIPLIERS, |m - x| = |snapQ x - x| → snapQ x ≤ m) ∧
    snapQ (5/4) = 13/10 := by
  have htable :
      COIN_MULTIPLIERS = 1.1 :: [1.3, 1.5, 2, 2.5, 3, 4, 5, 6, 11, 21, 51] := rfl
  have hspec := pyMinBy_spec (fun m => absQ (m - x)) 1.1
    [1.3, 1.5, 2, 2.5, 3, 4, 5, 6, 11, 21, 51] (htable ▸ coin_multipliers_sorted)
  rw [← snapQ_pos x hx, ← htable] at hspec
  obtain ⟨hmem, hmin, htie⟩ := hspec
  refine ⟨hmem, ?_, ?_, ?_⟩
  · intro m hm
    have := hmin m hm
    simp only [absQ_eq_abs] at this
    exact not_lt.mpr this
  · intro m hm heq
    refine htie m hm ?_
    simp only [absQ_eq_abs]
    exact heq
  · norm_num [snapQ, COIN_MULTIPLIERS, pyMinBy, absQ]

theorem C2_snap_nearest_witness : snapQ (5/4) = 13/10 :=
  (C2_snap_nearest (5/4) (by norm_num)).2.2.2

/-- C3: snap_rate_to_multiplier passes non-positive, NaN and infinite
inputs through unchanged, without raising an error; in particular snap 0 =
0, snap (-5) = -5 and snap NaN is NaN. -/
theorem C3_snap_passthrough :
    (∀ q : ℚ, q ≤ 0 → snap_rate_to_multiplier (FVal.finite q) = FVal.finite q) ∧
    snap_rate_to_multiplier FVal.nan = FVal.nan ∧
    snap_rate_to_multiplier FVal.inf = FVal.inf ∧
    snap_rate_to_multiplier FVal.neginf = FVal.neginf ∧
    snap_rate_to_multiplier (FVal.finite 0) = FVal.finite 0 ∧
    snap_rate_to_multiplier (FVal.finite (-5)) = FVal.finite (-5) := by
  refine ⟨?_, rfl, rfl, rfl, ?_, ?_⟩
  · intro q hq
    simp [snap_rate_to_multiplier, snapQ, hq]
  · simp [snap_rate_to_multiplier, snapQ]
  · norm_num [snap_rate_to_multiplier, snapQ]

theorem C3_snap_passthrough_witness :
    snap_rate_to_multiplier (FVal.finite (-3)) = FVal.finite (-3) :=
  C3_snap_passthrough.1 (-3) (by norm_num)

/-- C7: the rate_raw and rate fields of calculate_record do not depend on
the two item flags; the deduction only affects the final field. -/
theorem C7_rate_independent_of_items (base boost : ℚ) (a₁ b₁ a₂ b₂ : Bool)
    (hbase : 0 < base) (hboost : 0 < boost) :
    (calculate_record base boost a₁ b₁).rate_raw =
      (calculate_record base boost a₂ b₂).rate_raw ∧
    (calculate_record base boost a₁ b₁).rate =
      (calculate_record base boost a₂ b₂).rate :=
  ⟨rfl, rfl⟩

theorem C7_rate_independent_of_items_witness :
    (calculate_record 1000 2000 true false).rate_raw =
      (calculate_record 1000 2000 false true).rate_raw ∧
    (calculate_record 1000 2000 true false).rate =
      (calculate_record 1000 2000 false true).rate :=
  C7_rate_independent_of_items 1000 2000 true false false true (by norm_num)
    (by norm_num)

/-- C10: for every base ≤ 0 the division is guarded, so calculate_record
stores rate_raw = 0 and rate = 0 (snap passes 0 through and rounding keeps
it 0). -/
theorem roundHalfEven_zero : roundHalfEven 0 = 0 := by
  rw [roundHalfEven]
  norm_num

theorem roundTo_zero (n : ℕ) : roundTo n 0 = 0 := by
  rw [roundTo, zero_mul, roundHalfEven_zero, Int.cast_zero, zero_div]

theorem snapQ_nonpos (q : ℚ) (h : q ≤ 0) : snapQ q = q := by
  rw [snapQ, if_pos h]

theorem C10_nonpositive_base (base boost : ℚ) (a b : Bool) (hbase : base ≤ 0) :
    (calculate_record base boost a b).rate_raw = 0 ∧
    (calculate_record base boost a b).rate = 0 := by
  have h : ¬ (base > 0) := not_lt.mpr hbase
  constructor
  · rw [show (calculate_record base boost a b).rate_raw =
      roundTo 6 (if base > 0 then boost / base else 0) from rfl]
    rw [if_neg h, roundTo_zero]
  · rw [show (calculate_record base boost a b).rate =
      roundTo 3 (snapQ (if base > 0 then boost / base else 0)) from rfl]
    rw [if_neg h, snapQ_nonpos 0 (le_refl 0), roundTo_zero]

theorem C10_nonpositive_base_witness :
    (calculate_record 0 500 true false).rate_raw = 0 ∧
    (calculate_record 0 500 true false).rate = 0 :=
  C10_nonpositive_base 0 500 true false (by norm_num)

/-!
Persistence model.  The data collection held in the session is the Python
dict mapping entity names to lists of records; it is embedded as an
insertion-ordered association list.  The HTTP and filesystem environments
that load_existing_data, get_github_file, save_data_to_session and
save_data_to_file interact with are passed in explicitly: an HTTP response
is a status code together with the parse outcome of its body (or a raised
transport exception), the local file is a parse outcome, and a write is an
outcome boolean.
-/

/-- The coin_data collection: entity name to its ordered record list. -/
abbrev Collection := List (String × List Record)

/-- The configuration values load_existing_data and save_data_to_session
read through get_config_value, plus whether the local data file exists
(os.path.exists).  Python tests the three coordinate strings for
truthiness, so a coordinate is present exactly when it is non-empty. -/
structure PersistenceConfig where
  github_token : String
  github_owner : String
  github_repo : String
  github_path : String
  local_file_exists : Bool

/-- The three backing stores a session can resolve to. -/
inductive SourceKind where
  | Remote
  | LocalFile
  | MemoryOnly
deriving DecidableEq

/-- Whether the remote coordinate set is complete, as tested by the source
(if github_token and github_owner and github_repo). -/
def remoteComplete (c : PersistenceConfig) : Prop :=
  c.github_token ≠ "" ∧ c.github_owner ≠ "" ∧ c.github_repo ≠ ""

instance (c : PersistenceConfig) : Decidable (remoteComplete c) := by
  unfold remoteComplete
  infer_instance

/-- The backing-store decision made by load_existing_data (and mirrored by
save_data_to_session): complete remote coordinates win, otherwise an
existing local file, otherwise memory only. -/
def resolve_source (c : PersistenceConfig) : SourceKind :=
  if remoteComplete c then SourceKind.Remote
  else if c.local_file_exists then SourceKind.LocalFile
  else SourceKind.MemoryOnly

/-- The environment's answer to the GitHub contents GET issued by
get_github_file: either the request raised, or a status code was returned
(with the decode/parse outcome of the body, relevant only on 200). -/
inductive RemoteFetch where
  | exn (msg : String)
  | status (code : ℕ) (parsed : Option Collection)

/-- get_github_file from the source: guard on an empty token, 200 returns
the parsed body (a raising decode is caught by the try/except), 404 returns
an empty collection with no error, anything else is an error. -/
def get_github_file (token : String) (fetch : RemoteFetch) :
    Option Collection × Option String :=
  if token = "" then (none, some "GitHub token is not configured")
  else
    match fetch with
    | RemoteFetch.exn m => (none, some ("Error: " ++ m))
    | RemoteFetch.status code parsed =>
      if code = 200 then
        match parsed with
        | some d => (some d, none)
        | none => (none, some "Error: body is not valid base64 JSON")
      else if code = 404 then (some [], none)
      else (none, some ("GitHub API error: " ++ toString code))

/-- load_existing_data from the source, for a session whose coin_data is
not yet set (the session branch of the source returns the cached value
unchanged).  localParse is the outcome of reading and parsing the local
file when it exists: a raising open/parse is caught and degraded to an
empty collection. -/
def load_existing_data (c : PersistenceConfig) (fetch : RemoteFetch)
    (localParse : Option Collection) : Collection :=
  if remoteComplete c then
    match get_github_file c.github_token fetch with
    | (_, some _) => []
    | (some d, none) => d
    | (none, none) => []
  else if c.local_file_exists then
    match localParse with
    | some d => d
    | none => []
  else []

/-- save_data_to_file from the source: writing can raise, in which case an
error is shown and False is returned. -/
def save_data_to_file (write_ok : Bool) : Bool × Option String :=
  if write_ok then (true, none) else (false, some "file save error")

/-- The environment of one save: whether the GitHub PUT round-trip in
save_to_github reports success (with its message), and whether the local
file write succeeds. -/
structure SaveEnv where
  github_ok : Bool
  github_msg : String
  local_write_ok : Bool

/-- The observable effects of save_data_to_session: the session collection
it stores, the recorded last_github_save status, whether save_data_to_file
ran, and that call's reported outcome. -/
structure SaveResult where
  session_data : Collection
  last_github_save : Option String
  local_save_attempted : Bool
  local_save_outcome : Option (Bool × Option String)
deriving DecidableEq

/-- save_data_to_session from the source: the collection is always stored
in the session; with complete remote coordinates the GitHub save runs and
on failure the local save also runs; without remote coordinates only the
local save runs. -/
def save_data_to_session (c : PersistenceConfig) (env : SaveEnv)
    (data : Collection) : SaveResult :=
  if remoteComplete c then
    if env.github_ok then
      { session_data := data
        last_github_save := some "success"
        local_save_attempted := false
        local_save_outcome := none }
    else
      { session_data := data
        last_github_save := some ("failed: " ++ env.github_msg)
        local_save_attempted := true
        local_save_outcome := some (save_data_to_file env.local_write_ok) }
  else
    { session_data := data
      last_github_save := none
      local_save_attempted := true
      local_save_outcome := some (save_data_to_file env.local_write_ok) }

/-- C4: resolve_source picks exactly one backing store by precedence:
complete remote coordinates give Remote; otherwise an existing local file
gives LocalFile; otherwise MemoryOnly, and in the MemoryOnly case
load_existing_data yields the empty collection. -/
theorem C4_resolve_source_precedence (c : PersistenceConfig) :
    (remoteComplete c → resolve_source c = SourceKind.Remote) ∧
    (¬ remoteComplete c → c.local_file_exists = true →
      resolve_source c = SourceKind.LocalFile) ∧
    (¬ remoteComplete c → c.local_file_exists = false →
      resolve_source c = SourceKind.MemoryOnly) ∧
    (∀ fetch localParse, resolve_source c = SourceKind.MemoryOnly →
      load_existing_data c fetch localParse = []) := by
  refine ⟨?_, ?_, ?_, ?_⟩
  · intro h
    rw [resolve_source, if_pos h]
  · intro h hl
    rw [resolve_source, if_neg h, if_pos hl]
  · intro h hl
    rw [resolve_source, if_neg h, hl]
    simp
  · intro fetch localParse hmem
    rw [resolve_source] at hmem
    by_cases h : remoteComplete c
    · rw [if_pos h] at hmem
      exact absurd hmem (by simp)
    · by_cases hl : c.local_file_exists
      · rw [if_neg h, if_pos hl] at hmem
        exact absurd hmem (by simp)
      · simp [load_existing_data, h, hl]

theorem C4_resolve_source_precedence_witness :
    resolve_source
      { github_token := "t", github_owner := "o", github_repo := "r",
        github_path := "p", local_file_exists := false } = SourceKind.Remote :=
  (C4_resolve_source_precedence _).1 (by refine ⟨?_, ?_, ?_⟩ <;> decide)

/-- C5: for a remote load with a configured token, a 404 yields the empty
collection with no error; a transport exception or any other non-2xx
status yields an error and no collection. -/
theorem C5_remote_load_404 (token : String) (htok : token ≠ "") :
    (∀ parsed, get_github_file token (RemoteFetch.status 404 parsed) = (some [], none)) ∧
    (∀ msg, (get_github_file token (RemoteFetch.exn msg)).1 = none ∧
      ((get_github_file token (RemoteFetch.exn msg)).2).isSome = true) ∧
    (∀ code parsed, code ≠ 404 → code < 200 ∨ 300 ≤ code →
      (get_github_file token (RemoteFetch.status code parsed)).1 = none ∧
      ((get_github_file token (RemoteFetch.status code parsed)).2).isSome = true) := by
  refine ⟨?_, ?_, ?_⟩
  · intro parsed
    simp [get_github_file, htok]
  · intro msg
    simp [get_github_file, htok]
  · intro code parsed h404 hrange
    have h200 : code ≠ 200 := by omega
    simp [get_github_file, htok, h200, h404]

theorem C5_remote_load_404_witness :
    get_github_file "t" (RemoteFetch.status 404 none) = (some [], none) ∧
    (get_github_file "t" (RemoteFetch.status 500 none)).1 = none ∧
    ((get_github_file "t" (RemoteFetch.status 500 none)).2).isSome = true :=
  ⟨(C5_remote_load_404 "t" (by decide)).1 none,
   (C5_remote_load_404 "t" (by decide)).2.2 500 none (by decide) (by omega)⟩

/-- C6: with complete remote coordinates, a failing GitHub save triggers a
local file save whose outcome is reported alongside the recorded GitHub
failure, and the in-memory collection is stored in the session regardless;
a succeeding GitHub save triggers no local save. -/
theorem C6_save_fallback (c : PersistenceConfig) (env : SaveEnv)
    (data : Collection) (hcomplete : remoteComplete c) :
    (save_data_to_session c env data).session_data = data ∧
    (env.github_ok = false →
      (save_data_to_session c env data).local_save_attempted = true ∧
      (save_data_to_session c env data).local_save_outcome =
        some (save_data_to_file env.local_write_ok) ∧
      (save_data_to_session c env data).last_github_save =
        some ("failed: " ++ env.github_msg)) ∧
    (env.github_ok = true →
      (save_data_to_session c env data).local_save_attempted = false ∧
      (save_data_to_session c env data).last_github_save = some "success") := by
  rw [save_data_to_session, if_pos hcomplete]
  refine ⟨?_, ?_, ?_⟩
  · by_cases h : env.github_ok <;> simp [h]
  · intro h
    simp [h]
  · intro h
    simp [h]

theorem C6_save_fallback_witness :
    (save_data_to_session
        { github_token := "t", github_owner := "o", github_repo := "r",
          github_path := "p", local_file_exists := true }
        { github_ok := false, github_msg := "409", local_write_ok := true }
        []).local_save_attempted = true :=
  ((C6_save_fallback _ _ [] (by refine ⟨?_, ?_, ?_⟩ <;> decide)).2.1 rfl).1

/-!
Collection operations of the main form handlers: appending a record to a
(possibly new) entity, and deleting the latest record of an entity with
removal of the key when its list becomes empty.
-/

/-- The record-append handler (if selected_tsum not in data: data[tsum] =
[]; data[tsum].append(record)): append to the existing key, or add the key
with a one-record list. -/
def addRecord (data : Collection) (name : String) (r : Record) : Collection :=
  if data.any (fun p => p.1 = name) then
    data.map (fun p => if p.1 = name then (p.1, p.2 ++ [r]) else p)
  else
    data ++ [(name, [r])]

/-- The delete-latest handler (data[tsum].pop(); if not data[tsum]: del
data[tsum]): drop the last record of the key, removing the key entirely
when its list becomes empty. -/
def deleteLatest (data : Collection) (name : String) : Collection :=
  data.filterMap (fun p =>
    if p.1 = name then
      if p.2.dropLast = [] then none else some (p.1, p.2.dropLast)
    else some p)

/-- The Collection invariant: every present key has a non-empty record
list. -/
def CollectionInv (data : Collection) : Prop := ∀ p ∈ data, p.2 ≠ []

/-- Python key-membership test (name in data). -/
def containsKey (data : Collection) (name : String) : Bool :=
  data.any (fun p => p.1 = name)

/-- Python dict lookup data[name] (first matching entry). -/
def lookupRecords (data : Collection) (name : String) : Option (List Record) :=
  (data.find? (fun p => p.1 = name)).map (fun p => p.2)

/-- Keys of the filterMap underlying deleteLatest are kept, so a key of the
result was a key of the input. -/
theorem containsKey_deleteLatest (data : Collection) (name k : String)
    (h : containsKey (deleteLatest data name) k = true) :
    containsKey data k = true := by
  rw [containsKey, List.any_eq_true] at h ⊢
  obtain ⟨q, hq, hk⟩ := h
  rw [deleteLatest, List.mem_filterMap] at hq
  obtain ⟨p, hp, hpq⟩ := hq
  refine ⟨p, hp, ?_⟩
  by_cases hname : p.1 = name
  · rw [if_pos hname] at hpq
    by_cases hdrop : p.2.dropLast = []
    · rw [if_pos hdrop] at hpq
      exact absurd hpq (by simp)
    · rw [if_neg hdrop] at hpq
      have : q = (p.1, p.2.dropLast) := by
        injection hpq with h
        exact h.symm
      rw [this] at hk
      exact hk
  · rw [if_neg hname] at hpq
    have : q = p := by
      injection hpq with h
      exact h.symm
    rw [this] at hk
    exact hk

/-- C8: the invariant that every key maps to a non-empty list is preserved
by appending a record (to a new or existing key) and by deleting the
latest record of a key; and, for a dict (keys occur at most once), deleting
the last remaining record of a key removes the key entirely. -/
theorem C8_collection_invariant (data : Collection) (name : String) (r : Record)
    (hinv : CollectionInv data) :
    CollectionInv (addRecord data name r) ∧
    CollectionInv (deleteLatest data name) ∧
    ((data.map Prod.fst).Nodup → ∀ r₀, lookupRecords data name = some [r₀] →
      containsKey (deleteLatest data name) name = false) := by
  refine ⟨?_, ?_, ?_⟩
  · intro p hp
    rw [addRecord] at hp
    by_cases h : data.any (fun p => p.1 = name)
    · rw [if_pos h] at hp
      rw [List.mem_map] at hp
      obtain ⟨q, hq, hqp⟩ := hp
      by_cases hname : q.1 = name
      · rw [if_pos hname] at hqp
        rw [← hqp]
        simp
      · rw [if_neg hname] at hqp
        rw [← hqp]
        exact hinv q hq
    · rw [if_neg h] at hp
      rcases List.mem_append.mp hp with hp | hp
      · exact hinv p hp
      · rw [List.mem_singleton] at hp
        rw [hp]
        simp
  · intro p hp
    rw [deleteLatest, List.mem_filterMap] at hp
    obtain ⟨q, hq, hqp⟩ := hp
    by_cases hname : q.1 = name
    · rw [if_pos hname] at hqp
      by_cases hdrop : q.2.dropLast = []
      · rw [if_pos hdrop] at hqp
        exact absurd hqp (by simp)
      · rw [if_neg hdrop] at hqp
        have : p = (q.1, q.2.dropLast) := by
          injection hqp with h
          exact h.symm
        rw [this]
        exact hdrop
    · rw [if_neg hname] at hqp
      have : p = q := by
        injection hqp with h
        exact h.symm
      rw [this]
      exact hinv q hq
  · induction data with
    | nil =>
      intro _ r₀ hlook
      rw [lookupRecords] at hlook
      simp at hlook
    | cons p data ih =>
      intro hnodup r₀ hlook
      rw [List.map_cons, List.nodup_cons] at hnodup
      obtain ⟨hhead, htail⟩ := hnodup
      by_cases hname : p.1 = name
      · have hrecords : p.2 = [r₀] := by
          rw [lookupRecords, List.find?_cons_of_pos _ (by simpa using hname)] at hlook
          simpa using hlook
        have hstep : deleteLatest (p :: data) name = deleteLatest data name := by
          rw [deleteLatest, List.filterMap_cons, if_pos hname, hrecords]
          simp [deleteLatest]
        rw [hstep]
        by_contra hcontra
        rw [Bool.not_eq_false] at hcontra
        have hkey := containsKey_deleteLatest data name name hcontra
        rw [containsKey, List.any_eq_true] at hkey
        obtain ⟨q, hq, hqk⟩ := hkey
        refine hhead ?_
        rw [List.mem_map]
        refine ⟨q, hq, ?_⟩
        rw [hname]
        exact (of_decide_eq_true hqk).symm ▸ rfl
      · have hstep : deleteLatest (p :: data) name = p :: deleteLatest data name := by
          rw [deleteLatest, List.filterMap_cons, if_neg hname]
          rfl
        have hlook' : lookupRecords data name = some [r₀] := by
          rwa [lookupRecords, List.find?_cons_of_neg _ (by simpa using hname)] at hlook
        have htailinv : CollectionInv data := fun q hq => hinv q (List.mem_cons_of_mem p hq)
        have := ih htailinv htail r₀ hlook'
        rw [hstep, containsKey, List.any_cons]
        simp only [Bool.or_eq_false_iff]
        refine ⟨by simpa using hname, ?_⟩
        rw [containsKey] at this
        exact this

/-!
The persisted file format.  save_data_to_file and save_to_github write the
collection with json.dump(data, ..., ensure_ascii=False, indent=2):
a JSON object whose keys are the entity names and whose values are arrays
of five-field record objects, with 2-space indentation and non-ASCII
characters kept literal.  load_existing_data reads it back with json.load.
The emitter below produces exactly that character stream (with numbers in
a fixed-point decimal form) and the parser below reads it; the round-trip
theorem C9 is stated about this pair.
-/

/-- The character of a decimal digit d < 10. -/
def digitChar (d : ℕ) : Char := Char.ofNat (48 + d)

/-- Numeric value of a digit character. -/
def digitVal (c : Char) : ℕ := c.toNat - 48

/-- Decimal digits of a natural number, most significant first. -/
def natDigits (n : ℕ) : List Char :=
  if _h : n < 10 then [digitChar n]
  else natDigits (n / 10) ++ [digitChar (n % 10)]
termination_by n
decreasing_by exact Nat.div_lt_self (by omega) (by omega)

theorem digitChar_isDigit (d : ℕ) (hd : d < 10) : (digitChar d).isDigit = true := by
  interval_cases d <;> rfl

theorem digitVal_digitChar (d : ℕ) (hd : d < 10) : digitVal (digitChar d) = d := by
  interval_cases d <;> rfl

theorem natDigits_all_digits (n : ℕ) : ∀ c ∈ natDigits n, c.isDigit = true := by
  induction n using Nat.strong_induction_on with
  | _ n ih =>
    intro c hc
    rw [natDigits] at hc
    by_cases h : n < 10
    · rw [dif_pos h] at hc
      rw [List.mem_singleton] at hc
      rw [hc]
      exact digitChar_isDigit n h
    · rw [dif_neg h] at hc
      rcases List.mem_append.mp hc with hc | hc
      · exact ih (n / 10) (Nat.div_lt_self (by omega) (by omega)) c hc
      · rw [List.mem_singleton] at hc
        rw [hc]
        exact digitChar_isDigit _ (Nat.mod_lt _ (by omega))

theorem natDigits_ne_nil (n : ℕ) : natDigits n ≠ [] := by
  rw [natDigits]
  by_cases h : n < 10
  · rw [dif_pos h]
    simp
  · rw [dif_neg h]
    simp

/-- Accumulating decimal value of a digit string, as read left to right. -/
def digitsVal (acc : ℕ) (ds : List Char) : ℕ :=
  ds.foldl (fun a c => a * 10 + digitVal c) acc

theorem digitsVal_append (acc : ℕ) (l₁ l₂ : List Char) :
    digitsVal acc (l₁ ++ l₂) = digitsVal (digitsVal acc l₁) l₂ := by
  rw [digitsVal, digitsVal, digitsVal, List.foldl_append]

theorem natDigits_val (n : ℕ) :
    ∀ acc, digitsVal acc (natDigits n) = acc * 10 ^ (natDigits n).length + n := by
  induction n using Nat.strong_induction_on with
  | _ n ih =>
    intro acc
    rw [natDigits]
    by_cases h : n < 10
    · rw [dif_pos h]
      simp [digitsVal, digitVal_digitChar n h]
    · rw [dif_neg h]
      rw [digitsVal_append, ih (n / 10) (Nat.div_lt_self (by omega) (by omega)) acc]
      have hmod : digitVal (digitChar (n % 10)) = n % 10 :=
        digitVal_digitChar _ (Nat.mod_lt _ (by omega))
      simp only [digitsVal, List.foldl_cons, List.foldl_nil, List.length_append,
        List.length_singleton, hmod]
      have hsplit : n / 10 * 10 + n % 10 = n := by omega
      have hpow : 10 ^ ((natDigits (n / 10)).length + 1) =
          10 ^ (natDigits (n / 10)).length * 10 := by
        rw [pow_succ]
      rw [hpow]
      ring_nf
      omega

theorem natDigits_length_le (k n : ℕ) (hk : 1 ≤ k) (hn : n < 10 ^ k) :
    (natDigits n).length ≤ k := by
  induction n using Nat.strong_induction_on generalizing k with
  | _ n ih =>
    rw [natDigits]
    by_cases h : n < 10
    · rw [dif_pos h]
      simpa using hk
    · rw [dif_neg h]
      have hk2 : 2 ≤ k := by
        by_contra hcon
        have : k = 1 := by omega
        rw [this] at hn
        omega
      have hdiv : n / 10 < 10 ^ (k - 1) := by
        rw [Nat.div_lt_iff_lt_mul (by omega)]
        calc n < 10 ^ k := hn
        _ = 10 ^ (k - 1) * 10 := by
            rw [← pow_succ]
            congr 1
            omega
      have := ih (n / 10) (Nat.div_lt_self (by omega) (by omega)) (k - 1) (by omega) hdiv
      rw [List.length_append, List.length_singleton]
      omega

/-- The input has no leading digit (so a digit scan stops here). -/
def headNotDigit : List Char → Prop
  | [] => True
  | c :: _ => c.isDigit = false

/-- Greedy digit scan with accumulator, as used by the number parser. -/
def parseNatAux (acc : ℕ) : List Char → ℕ × List Char
  | [] => (acc, [])
  | c :: cs => if c.isDigit then parseNatAux (acc * 10 + digitVal c) cs else (acc, c :: cs)

/-- Parse a natural number (at least one digit). -/
def parseNat (cs : List Char) : Option (ℕ × List Char) :=
  match cs with
  | [] => none
  | c :: cs' => if c.isDigit then some (parseNatAux (digitVal c) cs') else none

theorem parseNatAux_append (ds : List Char) (rest : List Char) (acc : ℕ)
    (hds : ∀ c ∈ ds, c.isDigit = true) (hrest : headNotDigit rest) :
    parseNatAux acc (ds ++ rest) = (digitsVal acc ds, rest) := by
  induction ds generalizing acc with
  | nil =>
    cases rest with
    | nil => rfl
    | cons c cs =>
      rw [List.nil_append, parseNatAux, if_neg]
      · rfl
      · rw [headNotDigit] at hrest
        simp [hrest]
  | cons d ds ih =>
    rw [List.cons_append, parseNatAux, if_pos (hds d (by simp))]
    rw [ih _ (fun c hc => hds c (List.mem_cons_of_mem d hc))]
    rfl

theorem parseNat_print (n : ℕ) (rest : List Char) (hrest : headNotDigit rest) :
    parseNat (natDigits n ++ rest) = some (n, rest) := by
  have hval := natDigits_val n 0
  rw [zero_mul, zero_add] at hval
  cases hd : natDigits n with
  | nil => exact absurd hd (natDigits_ne_nil n)
  | cons c ds =>
    have hdigits := natDigits_all_digits n
    rw [hd] at hdigits hval
    rw [List.cons_append, parseNat, if_pos (hdigits c (by simp))]
    rw [parseNatAux_append ds rest _ (fun x hx => hdigits x (List.mem_cons_of_mem c hx)) hrest]
    simp only [digitsVal, List.foldl_cons, zero_mul, zero_add] at hval
    simp only [digitsVal]
    rw [hval]

/-- Print an integer in decimal. -/
def printInt (n : ℤ) : List Char :=
  if n < 0 then '-' :: natDigits n.natAbs else natDigits n.toNat

/-- Parse an optionally negated natural number. -/
def parseInt (cs : List Char) : Option (ℤ × List Char) :=
  match cs with
  | [] => none
  | c :: cs' =>
    if c = '-' then (parseNat cs').map (fun p => (-(p.1 : ℤ), p.2))
    else (parseNat (c :: cs')).map (fun p => ((p.1 : ℤ), p.2))

theorem isDigit_ne_minus (c : Char) (h : c.isDigit = true) : c ≠ '-' := by
  intro heq
  rw [heq] at h
  exact absurd h (by decide)

theorem parseInt_print (n : ℤ) (rest : List Char) (hrest : headNotDigit rest) :
    parseInt (printInt n ++ rest) = some (n, rest) := by
  rw [printInt]
  by_cases h : n < 0
  · rw [if_pos h, List.cons_append, parseInt, if_pos rfl,
      parseNat_print n.natAbs rest hrest]
    have : -(n.natAbs : ℤ) = n := by omega
    simp only [Option.map_some']
    rw [this]
  · rw [if_neg h]
    cases hd : natDigits n.toNat with
    | nil => exact absurd hd (natDigits_ne_nil _)
    | cons c ds =>
      have hdigit : c.isDigit = true := by
        have := natDigits_all_digits n.toNat
        rw [hd] at this
        exact this c (by simp)
      rw [List.cons_append, parseInt, if_neg (by simpa using isDigit_ne_minus c hdigit)]
      rw [← List.cons_append, ← hd, parseNat_print n.toNat rest hrest]
      have : ((n.toNat : ℤ)) = n := by omega
      simp only [Option.map_some']
      rw [this]

/-- Zero-padded six-digit block for the fractional part m < 10^6. -/
def padSixDigits (m : ℕ) : List Char :=
  List.replicate (6 - (natDigits m).length) '0' ++ natDigits m

/-- Print a stored float value (an exact multiple of 10^-6) in fixed-point
decimal: optional sign, integer part, point, six fractional digits. -/
def printFloat (q : ℚ) : List Char :=
  (if ⌊q * 1000000⌋ < 0 then ['-'] else []) ++
    natDigits (⌊q * 1000000⌋.natAbs / 1000000) ++
    '.' :: padSixDigits (⌊q * 1000000⌋.natAbs % 1000000)

/-- Parse a fraction block: a maximal run of digits, valued as digits over
ten to the run length. -/
def parseFrac (cs : List Char) : Option (ℚ × List Char) :=
  match cs with
  | [] => none
  | c :: cs' =>
    if c.isDigit then
      some (((digitsVal 0 ((c :: cs').takeWhile Char.isDigit) : ℕ) : ℚ) /
          10 ^ ((c :: cs').takeWhile Char.isDigit).length,
        (c :: cs').dropWhile Char.isDigit)
    else none

/-- Parse an unsigned fixed-point number: integer digits, a point, then
fraction digits. -/
def parseUFloat (cs : List Char) : Option (ℚ × List Char) :=
  (parseNat cs).bind (fun p =>
    match p.2 with
    | [] => none
    | c :: rest =>
      if c = '.' then
        (parseFrac rest).map (fun f => ((p.1 : ℚ) + f.1, f.2))
      else none)

/-- Parse an optionally negated fixed-point number. -/
def parseFloat (cs : List Char) : Option (ℚ × List Char) :=
  match cs with
  | [] => none
  | c :: cs' =>
    if c = '-' then (parseUFloat cs').map (fun p => (-p.1, p.2))
    else parseUFloat (c :: cs')

theorem takeWhile_digits_append (ds rest : List Char)
    (hds : ∀ c ∈ ds, c.isDigit = true) (hrest : headNotDigit rest) :
    (ds ++ rest).takeWhile Char.isDigit = ds ∧
    (ds ++ rest).dropWhile Char.isDigit = rest := by
  induction ds with
  | nil =>
    cases rest with
    | nil => exact ⟨rfl, rfl⟩
    | cons c cs =>
      rw [headNotDigit] at hrest
      constructor
      · rw [List.nil_append, List.takeWhile_cons, hrest]
        simp
      · rw [List.nil_append, List.dropWhile_cons, hrest]
        simp
  | cons d ds ih =>
    obtain ⟨ht, hd⟩ := ih (fun c hc => hds c (List.mem_cons_of_mem d hc))
    constructor
    · rw [List.cons_append, List.takeWhile_cons, hds d (by simp), if_pos rfl, ht]
    · rw [List.cons_append, List.dropWhile_cons, hds d (by simp), if_pos rfl, hd]

theorem digitsVal_zeros (z : ℕ) (ds : List Char) :
    digitsVal 0 (List.replicate z '0' ++ ds) = digitsVal 0 ds := by
  induction z with
  | zero => rw [List.replicate_zero, List.nil_append]
  | succ z ih =>
    rw [List.replicate_succ, List.cons_append]
    simp only [digitsVal, List.foldl_cons] at ih ⊢
    have : (0 : ℕ) * 10 + digitVal '0' = 0 := by decide
    rw [this]
    exact ih

theorem padSixDigits_all_digits (m : ℕ) : ∀ c ∈ padSixDigits m, c.isDigit = true := by
  intro c hc
  rw [padSixDigits] at hc
  rcases List.mem_append.mp hc with hc | hc
  · rw [List.eq_of_mem_replicate hc]
    decide
  · exact natDigits_all_digits m c hc

theorem padSixDigits_ne_nil (m : ℕ) : padSixDigits m ≠ [] := by
  rw [padSixDigits]
  intro h
  rcases List.append_eq_nil.mp h with ⟨_, h2⟩
  exact natDigits_ne_nil m h2

theorem padSixDigits_val (m : ℕ) : digitsVal 0 (padSixDigits m) = m := by
  rw [padSixDigits, digitsVal_zeros]
  have := natDigits_val m 0
  rwa [zero_mul, zero_add] at this

theorem padSixDigits_length (m : ℕ) (hm : m < 1000000) :
    (padSixDigits m).length = 6 := by
  rw [padSixDigits, List.length_append, List.length_replicate]
  have hle : (natDigits m).length ≤ 6 :=
    natDigits_length_le 6 m (by omega) (by norm_num; omega)
  omega

theorem parseFrac_pad (m : ℕ) (hm : m < 1000000) (rest : List Char)
    (hrest : headNotDigit rest) :
    parseFrac (padSixDigits m ++ rest) = some ((m : ℚ) / 1000000, rest) := by
  cases hp : padSixDigits m with
  | nil => exact absurd hp (padSixDigits_ne_nil m)
  | cons c cs =>
    have hall := padSixDigits_all_digits m
    rw [hp] at hall
    obtain ⟨ht, hd⟩ := takeWhile_digits_append (c :: cs) rest hall hrest
    rw [List.cons_append, parseFrac, if_pos (hall c (by simp))]
    rw [← List.cons_append, ht, hd, ← hp, padSixDigits_val,
      padSixDigits_length m hm]
    norm_num

theorem parseUFloat_print (a : ℕ) (rest : List Char) (hrest : headNotDigit rest) :
    parseUFloat (natDigits (a / 1000000) ++ '.' :: (padSixDigits (a % 1000000) ++ rest)) =
      some ((a : ℚ) / 1000000, rest) := by
  rw [parseUFloat, parseNat_print (a / 1000000) _ (by rw [headNotDigit]; decide)]
  show Option.map (fun f => (((a / 1000000 : ℕ) : ℚ) + f.1, f.2))
      (parseFrac (padSixDigits (a % 1000000) ++ rest)) =
    some ((a : ℚ) / 1000000, rest)
  rw [parseFrac_pad (a % 1000000) (Nat.mod_lt _ (by omega)) rest hrest]
  rw [Option.map_some']
  have hsplit : (1000000 : ℚ) * ((a / 1000000 : ℕ) : ℚ) + ((a % 1000000 : ℕ) : ℚ) =
      (a : ℚ) := by
    norm_cast
    omega
  have hval : ((a / 1000000 : ℕ) : ℚ) + ((a % 1000000 : ℕ) : ℚ) / 1000000 =
      (a : ℚ) / 1000000 := by
    field_simp
    linarith
  rw [hval]

/-- A stored float value: an exact multiple of 10^-6, as produced by the
6-decimal (or 3-decimal) rounding of the record calculator. -/
def IsStoredFloat (q : ℚ) : Prop := ∃ m : ℤ, q = (m : ℚ) / 1000000

theorem parseFloat_print (q : ℚ) (m : ℤ) (hq : q = (m : ℚ) / 1000000)
    (rest : List Char) (hrest : headNotDigit rest) :
    parseFloat (printFloat q ++ rest) = some (q, rest) := by
  have hfloor : ⌊q * 1000000⌋ = m := by
    rw [hq, div_mul_cancel₀ _ (by norm_num : (1000000 : ℚ) ≠ 0)]
    exact Int.floor_intCast m
  rw [printFloat, hfloor]
  by_cases hneg : m < 0
  · rw [if_pos hneg]
    simp only [List.cons_append, List.nil_append, List.append_assoc]
    rw [parseFloat, if_pos rfl]
    rw [parseUFloat_print m.natAbs rest hrest, Option.map_some']
    have hcast : ((m.natAbs : ℕ) : ℚ) = -(m : ℚ) := by
      have h1 : ((m.natAbs : ℕ) : ℤ) = -m := by omega
      calc ((m.natAbs : ℕ) : ℚ) = (((m.natAbs : ℕ) : ℤ) : ℚ) := (Int.cast_natCast _).symm
      _ = ((-m : ℤ) : ℚ) := by rw [h1]
      _ = -(m : ℚ) := Int.cast_neg m
    have hval : -(((m.natAbs : ℕ) : ℚ) / 1000000) = q := by
      rw [hq, hcast]
      ring
    show some (-(((m.natAbs : ℕ) : ℚ) / 1000000), rest) = some (q, rest)
    rw [hval]
  · rw [if_neg hneg]
    simp only [List.cons_append, List.nil_append, List.append_assoc]
    cases hd : natDigits (m.natAbs / 1000000) with
    | nil => exact absurd hd (natDigits_ne_nil _)
    | cons c ds =>
      have hdigit : c.isDigit = true := by
        have := natDigits_all_digits (m.natAbs / 1000000)
        rw [hd] at this
        exact this c (by simp)
      rw [List.cons_append, parseFloat, if_neg (by simpa using isDigit_ne_minus c hdigit)]
      rw [← List.cons_append, ← hd, parseUFloat_print m.natAbs rest hrest]
      have hval : ((m.natAbs : ℕ) : ℚ) / 1000000 = q := by
        rw [hq]
        congr 1
        have h1 : ((m.natAbs : ℕ) : ℤ) = m := by omega
        calc ((m.natAbs : ℕ) : ℚ) = (((m.natAbs : ℕ) : ℤ) : ℚ) := (Int.cast_natCast _).symm
        _ = (m : ℚ) := by rw [h1]
      rw [hval]

/-- Hex digit character (lowercase), for d < 16. -/
def hexDigitChar (d : ℕ) : Char :=
  if d < 10 then digitChar d else Char.ofNat (87 + d)

/-- Numeric value of a hex digit character. -/
def hexVal (c : Char) : Option ℕ :=
  if c.isDigit then some (c.toNat - 48)
  else if 'a' ≤ c ∧ c ≤ 'f' then some (c.toNat - 87)
  else if 'A' ≤ c ∧ c ≤ 'F' then some (c.toNat - 55)
  else none

/-- JSON string escaping with ensure_ascii=False, as json.dump performs
it: quote, backslash and the named control characters get two-character
escapes, remaining control characters get a u00XX escape, and every other
character (non-ASCII included) is kept literal. -/
def escapeChar (c : Char) : List Char :=
  if c = '"' then ['\\', '"']
  else if c = '\\' then ['\\', '\\']
  else if c = '\n' then ['\\', 'n']
  else if c = '\t' then ['\\', 't']
  else if c = '\r' then ['\\', 'r']
  else if c = Char.ofNat 8 then ['\\', 'b']
  else if c = Char.ofNat 12 then ['\\', 'f']
  else if c.toNat < 32 then
    ['\\', 'u', '0', '0', hexDigitChar (c.toNat / 16), hexDigitChar (c.toNat % 16)]
  else [c]

def escapeList : List Char → List Char
  | [] => []
  | c :: cs => escapeChar c ++ escapeList cs

/-- Inverse of the two-character escapes. -/
def unescapeChar (e : Char) : Option Char :=
  if e = '"' then some '"'
  else if e = '\\' then some '\\'
  else if e = '/' then some '/'
  else if e = 'n' then some '\n'
  else if e = 't' then some '\t'
  else if e = 'r' then some '\r'
  else if e = 'b' then some (Char.ofNat 8)
  else if e = 'f' then some (Char.ofNat 12)
  else none

/-- One step of parsing the body of a JSON string literal: the next
character (literal, two-character escape, or u00XX escape), continuing
with the given continuation. -/
def parseStringBody (next : List Char → Option (List Char × List Char)) :
    List Char → Option (List Char × List Char)
  | [] => none
  | c :: cs =>
    if c = '"' then some ([], cs)
    else if c = '\\' then
      match cs with
      | [] => none
      | e :: cs₁ =>
        if e = 'u' then
          match cs₁ with
          | h1 :: h2 :: h3 :: h4 :: cs₂ =>
            match hexVal h1, hexVal h2, hexVal h3, hexVal h4 with
            | some a, some b, some c2, some d =>
              (next cs₂).map
                (fun p => (Char.ofNat (((a * 16 + b) * 16 + c2) * 16 + d) :: p.1, p.2))
            | _, _, _, _ => none
          | _ => none
        else
          match unescapeChar e with
          | some c₀ => (next cs₁).map (fun p => (c₀ :: p.1, p.2))
          | none => none
    else (next cs).map (fun p => (c :: p.1, p.2))

/-- Parse the body of a JSON string literal up to its closing quote; the
fuel bounds the number of decoded characters. -/
def parseStringRest : ℕ → List Char → Option (List Char × List Char)
  | 0, _ => none
  | fuel + 1, cs => parseStringBody (parseStringRest fuel) cs

theorem parseStringRest_succ (fuel : ℕ) (cs : List Char) :
    parseStringRest (fuel + 1) cs = parseStringBody (parseStringRest fuel) cs := rfl

/-- Print a JSON string literal. -/
def printString (s : String) : List Char := '"' :: (escapeList s.data ++ ['"'])

/-- Parse a JSON string literal. -/
def parseStringLit (cs : List Char) : Option (String × List Char) :=
  match cs with
  | [] => none
  | c :: cs' =>
    if c = '"' then
      (parseStringRest (cs'.length + 1) cs').map (fun p => (String.mk p.1, p.2))
    else none

theorem hexVal_hexDigitChar (d : ℕ) (hd : d < 16) :
    hexVal (hexDigitChar d) = some d := by
  interval_cases d <;> rfl

theorem parseStringBody_u (next : List Char → Option (List Char × List Char))
    (h1 h2 h3 h4 : Char) (a b c2 d : ℕ) (cs : List Char)
    (e1 : hexVal h1 = some a) (e2 : hexVal h2 = some b)
    (e3 : hexVal h3 = some c2) (e4 : hexVal h4 = some d) :
    parseStringBody next ('\\' :: 'u' :: h1 :: h2 :: h3 :: h4 :: cs) =
      (next cs).map
        (fun p => (Char.ofNat (((a * 16 + b) * 16 + c2) * 16 + d) :: p.1, p.2)) := by
  have hstep : parseStringBody next ('\\' :: 'u' :: h1 :: h2 :: h3 :: h4 :: cs) =
      match hexVal h1, hexVal h2, hexVal h3, hexVal h4 with
      | some a, some b, some c2, some d =>
        (next cs).map
          (fun p => (Char.ofNat (((a * 16 + b) * 16 + c2) * 16 + d) :: p.1, p.2))
      | _, _, _, _ => none := rfl
  rw [hstep, e1, e2, e3, e4]

theorem parseStringBody_cons (next : List Char → Option (List Char × List Char))
    (c : Char) (cs : List Char) :
    parseStringBody next (c :: cs) =
      (if c = '"' then some ([], cs)
      else if c = '\\' then
        match cs with
        | [] => none
        | e :: cs₁ =>
          if e = 'u' then
            match cs₁ with
            | h1 :: h2 :: h3 :: h4 :: cs₂ =>
              match hexVal h1, hexVal h2, hexVal h3, hexVal h4 with
              | some a, some b, some c2, some d =>
                (next cs₂).map
                  (fun p => (Char.ofNat (((a * 16 + b) * 16 + c2) * 16 + d) :: p.1, p.2))
              | _, _, _, _ => none
            | _ => none
          else
            match unescapeChar e with
            | some c₀ => (next cs₁).map (fun p => (c₀ :: p.1, p.2))
            | none => none
      else (next cs).map (fun p => (c :: p.1, p.2))) := by
  rw [parseStringBody.eq_def]

theorem parseStringRest_escape (s rest : List Char) :
    ∀ fuel, s.length < fuel →
    parseStringRest fuel (escapeList s ++ '"' :: rest) = some (s, rest) := by
  induction s with
  | nil =>
    intro fuel hfuel
    cases fuel with
    | zero => omega
    | succ fuel =>
      rw [escapeList, List.nil_append, parseStringRest_succ]
      rfl
  | cons c s ih =>
    intro fuel hfuel
    cases fuel with
    | zero => simp at hfuel
    | succ fuel =>
      have hih : parseStringRest fuel (escapeList s ++ '"' :: rest) = some (s, rest) :=
        ih fuel (by simp only [List.length_cons] at hfuel; omega)
      rw [escapeList, List.append_assoc, parseStringRest_succ]
      by_cases h1 : c = '"'
      · subst h1
        rw [show escapeChar '"' = ['\\', '"'] from rfl, List.cons_append, List.cons_append,
          List.nil_append]
        have hstep : parseStringBody (parseStringRest fuel)
            ('\\' :: '"' :: (escapeList s ++ '"' :: rest)) =
            (parseStringRest fuel (escapeList s ++ '"' :: rest)).map
              (fun p => ('"' :: p.1, p.2)) := rfl
        rw [hstep, hih, Option.map_some']
      · by_cases h2 : c = '\\'
        · subst h2
          rw [show escapeChar '\\' = ['\\', '\\'] from rfl, List.cons_append,
            List.cons_append, List.nil_append]
          have hstep : parseStringBody (parseStringRest fuel)
              ('\\' :: '\\' :: (escapeList s ++ '"' :: rest)) =
              (parseStringRest fuel (escapeList s ++ '"' :: rest)).map
                (fun p => ('\\' :: p.1, p.2)) := rfl
          rw [hstep, hih, Option.map_some']
        · by_cases h3 : c = '\n'
          · subst h3
            rw [show escapeChar '\n' = ['\\', 'n'] from rfl, List.cons_append,
              List.cons_append, List.nil_append]
            have hstep : parseStringBody (parseStringRest fuel)
                ('\\' :: 'n' :: (escapeList s ++ '"' :: rest)) =
                (parseStringRest fuel (escapeList s ++ '"' :: rest)).map
                  (fun p => ('\n' :: p.1, p.2)) := rfl
            rw [hstep, hih, Option.map_some']
          · by_cases h4 : c = '\t'
            · subst h4
              rw [show escapeChar '\t' = ['\\', 't'] from rfl, List.cons_append,
                List.cons_append, List.nil_append]
              have hstep : parseStringBody (parseStringRest fuel)
                  ('\\' :: 't' :: (escapeList s ++ '"' :: rest)) =
                  (parseStringRest fuel (escapeList s ++ '"' :: rest)).map
                    (fun p => ('\t' :: p.1, p.2)) := rfl
              rw [hstep, hih, Option.map_some']
            · by_cases h5 : c = '\r'
              · subst h5
                rw [show escapeChar '\r' = ['\\', 'r'] from rfl, List.cons_append,
                  List.cons_append, List.nil_append]
                have hstep : parseStringBody (parseStringRest fuel)
                    ('\\' :: 'r' :: (escapeList s ++ '"' :: rest)) =
                    (parseStringRest fuel (escapeList s ++ '"' :: rest)).map
                      (fun p => ('\r' :: p.1, p.2)) := rfl
                rw [hstep, hih, Option.map_some']
              · by_cases h6 : c = Char.ofNat 8
                · subst h6
                  rw [show escapeChar (Char.ofNat 8) = ['\\', 'b'] from rfl,
                    List.cons_append, List.cons_append, List.nil_append]
                  have hstep : parseStringBody (parseStringRest fuel)
                      ('\\' :: 'b' :: (escapeList s ++ '"' :: rest)) =
                      (parseStringRest fuel (escapeList s ++ '"' :: rest)).map
                        (fun p => (Char.ofNat 8 :: p.1, p.2)) := rfl
                  rw [hstep, hih, Option.map_some']
                · by_cases h7 : c = Char.ofNat 12
                  · subst h7
                    rw [show escapeChar (Char.ofNat 12) = ['\\', 'f'] from rfl,
                      List.cons_append, List.cons_append, List.nil_append]
                    have hstep : parseStringBody (parseStringRest fuel)
                        ('\\' :: 'f' :: (escapeList s ++ '"' :: rest)) =
                        (parseStringRest fuel (escapeList s ++ '"' :: rest)).map
                          (fun p => (Char.ofNat 12 :: p.1, p.2)) := rfl
                    rw [hstep, hih, Option.map_some']
                  · by_cases h8 : c.toNat < 32
                    · rw [escapeChar, if_neg h1, if_neg h2, if_neg h3, if_neg h4,
                        if_neg h5, if_neg h6, if_neg h7, if_pos h8]
                      rw [show ∀ X : List Char,
                        (['\\', 'u', '0', '0', hexDigitChar (c.toNat / 16),
                          hexDigitChar (c.toNat % 16)] : List Char) ++ X =
                        '\\' :: 'u' :: '0' :: '0' :: hexDigitChar (c.toNat / 16) ::
                          hexDigitChar (c.toNat % 16) :: X from fun X => rfl]
                      rw [parseStringBody_u (parseStringRest fuel) '0' '0'
                        (hexDigitChar (c.toNat / 16)) (hexDigitChar (c.toNat % 16))
                        0 0 (c.toNat / 16) (c.toNat % 16) _ rfl rfl
                        (hexVal_hexDigitChar _ (by omega))
                        (hexVal_hexDigitChar _ (by omega))]
                      rw [hih, Option.map_some']
                      have hv : ((0 * 16 + 0) * 16 + c.toNat / 16) * 16 + c.toNat % 16 =
                          c.toNat := by omega
                      rw [hv, Char.ofNat_toNat]
                    · rw [escapeChar, if_neg h1, if_neg h2, if_neg h3, if_neg h4,
                        if_neg h5, if_neg h6, if_neg h7, if_neg h8]
                      rw [List.singleton_append, parseStringBody_cons, if_neg h1,
                        if_neg h2, hih, Option.map_some']

theorem escapeChar_length_pos (c : Char) : 1 ≤ (escapeChar c).length := by
  rw [escapeChar]
  split_ifs <;> simp

theorem escapeList_length (s : List Char) : s.length ≤ (escapeList s).length := by
  induction s with
  | nil => simp [escapeList]
  | cons c s ih =>
    rw [escapeList, List.length_append]
    have := escapeChar_length_pos c
    simp only [List.length_cons]
    omega

theorem string_mk_data (s : String) : String.mk s.data = s := by
  cases s
  rfl

theorem parseStringLit_print (s : String) (rest : List Char) :
    parseStringLit (printString s ++ rest) = some (s, rest) := by
  rw [printString, List.cons_append]
  have hassoc : (escapeList s.data ++ ['"']) ++ rest = escapeList s.data ++ '"' :: rest := by
    rw [List.append_assoc, List.singleton_append]
  rw [hassoc]
  have hstep : parseStringLit ('"' :: (escapeList s.data ++ '"' :: rest)) =
      (parseStringRest ((escapeList s.data ++ '"' :: rest).length + 1)
        (escapeList s.data ++ '"' :: rest)).map
        (fun p => (String.mk p.1, p.2)) := by
    simp [parseStringLit]
  rw [hstep]
  have hlen : s.data.length < (escapeList s.data ++ '"' :: rest).length + 1 := by
    rw [List.length_append]
    have := escapeList_length s.data
    omega
  rw [parseStringRest_escape s.data rest _ hlen, Option.map_some', string_mk_data]

/-- Match an expected literal character sequence, returning the remainder. -/
def expectLit : List Char → List Char → Option (List Char)
  | [], cs => some cs
  | _ :: _, [] => none
  | l :: ls, c :: cs => if c = l then expectLit ls cs else none

theorem expectLit_append (lit rest : List Char) :
    expectLit lit (lit ++ rest) = some rest := by
  induction lit with
  | nil => rfl
  | cons l ls ih =>
    rw [List.cons_append]
    show (if l = l then expectLit ls (ls ++ rest) else none) = some rest
    rw [if_pos rfl, ih]

theorem headNotDigit_of_head (l X : List Char) (c : Char) (cs : List Char)
    (hl : l = c :: cs) (hc : c.isDigit = false) : headNotDigit (l ++ X) := by
  rw [hl, List.cons_append]
  exact hc

/-- The literal pieces of a record as json.dump lays it out at depth 2 with
indent=2: the record object is indented four spaces, its fields six. -/
def recLit1 : List Char := "    \x7b\n      \"base\": ".data

def recLit2 : List Char := ",\n      \"boost\": ".data

def recLit3 : List Char := ",\n      \"final\": ".data

def recLit4 : List Char := ",\n      \"rate_raw\": ".data

def recLit5 : List Char := ",\n      \"rate\": ".data

def recLit6 : List Char := "\n    \x7d".data

/-- Serialize one record in the file format. -/
def printRecord (r : Record) : List Char :=
  recLit1 ++ printInt r.base ++ recLit2 ++ printInt r.boost ++ recLit3 ++
    printInt r.final ++ recLit4 ++ printFloat r.rate_raw ++ recLit5 ++
    printFloat r.rate ++ recLit6

/-- Parse one record in the file format. -/
def parseRecord (cs : List Char) : Option (Record × List Char) :=
  (expectLit recLit1 cs).bind fun cs₁ =>
  (parseInt cs₁).bind fun p1 =>
  (expectLit recLit2 p1.2).bind fun cs₂ =>
  (parseInt cs₂).bind fun p2 =>
  (expectLit recLit3 p2.2).bind fun cs₃ =>
  (parseInt cs₃).bind fun p3 =>
  (expectLit recLit4 p3.2).bind fun cs₄ =>
  (parseFloat cs₄).bind fun p4 =>
  (expectLit recLit5 p4.2).bind fun cs₅ =>
  (parseFloat cs₅).bind fun p5 =>
  (expectLit recLit6 p5.2).map fun cs₆ =>
  ({ base := p1.1, boost := p2.1, final := p3.1, rate_raw := p4.1, rate := p5.1 }, cs₆)

theorem parseRecord_print (r : Record) (h4 : IsStoredFloat r.rate_raw)
    (h5 : IsStoredFloat r.rate) (rest : List Char) :
    parseRecord (printRecord r ++ rest) = some (r, rest) := by
  obtain ⟨m4, hm4⟩ := h4
  obtain ⟨m5, hm5⟩ := h5
  rw [printRecord]
  simp only [List.append_assoc]
  rw [parseRecord, expectLit_append]
  simp only [Option.some_bind]
  rw [parseInt_print r.base _ (headNotDigit_of_head recLit2 _ ',' _ rfl (by decide))]
  simp only [Option.some_bind]
  rw [expectLit_append]
  simp only [Option.some_bind]
  rw [parseInt_print r.boost _ (headNotDigit_of_head recLit3 _ ',' _ rfl (by decide))]
  simp only [Option.some_bind]
  rw [expectLit_append]
  simp only [Option.some_bind]
  rw [parseInt_print r.final _ (headNotDigit_of_head recLit4 _ ',' _ rfl (by decide))]
  simp only [Option.some_bind]
  rw [expectLit_append]
  simp only [Option.some_bind]
  rw [parseFloat_print r.rate_raw m4 hm4 _
    (headNotDigit_of_head recLit5 _ ',' _ rfl (by decide))]
  simp only [Option.some_bind]
  rw [expectLit_append]
  simp only [Option.some_bind]
  rw [parseFloat_print r.rate m5 hm5 _
    (headNotDigit_of_head recLit6 _ '\n' _ rfl (by decide))]
  simp only [Option.some_bind]
  rw [expectLit_append]
  rfl

def sepLit : List Char := ",\n".data

def arrClose : List Char := "\n  ]".data

/-- Serialize the records of one entity, separated by comma-newline. -/
def printRecords : List Record → List Char
  | [] => []
  | [r] => printRecord r
  | r :: rs => printRecord r ++ sepLit ++ printRecords rs

/-- Serialize an entity's record array. -/
def printArr : List Record → List Char
  | [] => "[]".data
  | rs => "[\n".data ++ printRecords rs ++ arrClose

/-- Parse a non-empty record sequence terminated by the array closer. -/
def parseRecordsAux : ℕ → List Char → Option (List Record × List Char)
  | 0, _ => none
  | fuel + 1, cs =>
    (parseRecord cs).bind fun p =>
      match expectLit sepLit p.2 with
      | some cs₂ =>
        (parseRecordsAux fuel cs₂).bind fun q => some (p.1 :: q.1, q.2)
      | none =>
        (expectLit arrClose p.2).map fun rest => ([p.1], rest)

/-- Parse an entity's record array. -/
def parseArr (cs : List Char) : Option (List Record × List Char) :=
  match cs with
  | [] => none
  | c :: cs' =>
    if c = '[' then
      match cs' with
      | [] => none
      | c2 :: cs'' =>
        if c2 = ']' then some ([], cs'')
        else if c2 = '\n' then parseRecordsAux (cs''.length + 1) cs''
        else none
    else none

theorem printRecord_length_pos (r : Record) : 1 ≤ (printRecord r).length := by
  rw [printRecord]
  simp only [List.length_append]
  have : 1 ≤ recLit1.length := by decide
  omega

theorem printRecords_length (rs : List Record) : rs.length ≤ (printRecords rs).length := by
  induction rs with
  | nil => simp [printRecords]
  | cons r rs ih =>
    cases rs with
    | nil =>
      rw [printRecords]
      simpa using printRecord_length_pos r
    | cons r2 rs2 =>
      have hpr : printRecords (r :: r2 :: rs2) =
          printRecord r ++ sepLit ++ printRecords (r2 :: rs2) := rfl
      rw [hpr, List.length_append, List.length_append]
      have h1 := printRecord_length_pos r
      simp only [List.length_cons] at ih ⊢
      omega

theorem expectLit_sep_arrClose (X : List Char) :
    expectLit sepLit (arrClose ++ X) = none := rfl

theorem parseRecordsAux_print (rs : List Record) (hne : rs ≠ [])
    (hst : ∀ r ∈ rs, IsStoredFloat r.rate_raw ∧ IsStoredFloat r.rate)
    (rest : List Char) :
    ∀ fuel, rs.length ≤ fuel →
    parseRecordsAux fuel (printRecords rs ++ (arrClose ++ rest)) = some (rs, rest) := by
  induction rs with
  | nil => exact absurd rfl hne
  | cons r rs ih =>
    intro fuel hfuel
    cases fuel with
    | zero => simp at hfuel
    | succ fuel =>
      cases rs with
      | nil =>
        rw [printRecords, parseRecordsAux,
          parseRecord_print r (hst r (by simp)).1 (hst r (by simp)).2]
        simp only [Option.some_bind]
        rw [expectLit_sep_arrClose, expectLit_append]
        rfl
      | cons r2 rs2 =>
        have hpr : printRecords (r :: r2 :: rs2) =
            printRecord r ++ sepLit ++ printRecords (r2 :: rs2) := rfl
        rw [hpr, List.append_assoc, List.append_assoc, parseRecordsAux,
          parseRecord_print r (hst r (by simp)).1 (hst r (by simp)).2]
        simp only [Option.some_bind]
        rw [expectLit_append]
        show (parseRecordsAux fuel (printRecords (r2 :: rs2) ++ (arrClose ++ rest))).bind
          (fun a => some (r :: a.1, a.2)) = some (r :: r2 :: rs2, rest)
        rw [ih (by simp) (fun x hx => hst x (List.mem_cons_of_mem r hx)) fuel
          (by simp only [List.length_cons] at hfuel ⊢; omega)]
        rfl

theorem parseArr_print (rs : List Record)
    (hst : ∀ r ∈ rs, IsStoredFloat r.rate_raw ∧ IsStoredFloat r.rate)
    (rest : List Char) :
    parseArr (printArr rs ++ rest) = some (rs, rest) := by
  cases rs with
  | nil =>
    show parseArr ('[' :: ']' :: rest) = some ([], rest)
    show (if '[' = '[' then
      (if ']' = ']' then some (([] : List Record), rest)
        else if ']' = '\n' then parseRecordsAux (rest.length + 1) rest else none)
      else none) = some ([], rest)
    rw [if_pos rfl, if_pos rfl]
  | cons r rs' =>
    rw [show printArr (r :: rs') =
      '[' :: '\n' :: (printRecords (r :: rs') ++ arrClose) from rfl]
    rw [List.cons_append, List.cons_append, List.append_assoc]
    show parseRecordsAux ((printRecords (r :: rs') ++ (arrClose ++ rest)).length + 1)
      (printRecords (r :: rs') ++ (arrClose ++ rest)) = some (r :: rs', rest)
    refine parseRecordsAux_print (r :: rs') (by simp) hst rest _ ?_
    have h1 := printRecords_length (r :: rs')
    rw [List.length_append]
    omega

def entryIndent : List Char := "  ".data

def keySep : List Char := ": ".data

def collClose : List Char := "\n\x7d".data

/-- Serialize one entity entry: indented quoted name, separator, array. -/
def printEntry (p : String × List Record) : List Char :=
  entryIndent ++ printString p.1 ++ keySep ++ printArr p.2

/-- Serialize the entries, separated by comma-newline. -/
def printEntries : Collection → List Char
  | [] => []
  | [p] => printEntry p
  | p :: ps => printEntry p ++ sepLit ++ printEntries ps

/-- Serialize a whole collection exactly as json.dump(data,
ensure_ascii=False, indent=2) lays it out. -/
def printColl : Collection → List Char
  | [] => "\x7b\x7d".data
  | d => "\x7b\n".data ++ printEntries d ++ collClose

/-- Parse a non-empty entry sequence terminated by the object closer. -/
def parseEntriesAux : ℕ → List Char → Option (Collection × List Char)
  | 0, _ => none
  | fuel + 1, cs =>
    (expectLit entryIndent cs).bind fun cs₁ =>
    (parseStringLit cs₁).bind fun pk =>
    (expectLit keySep pk.2).bind fun cs₂ =>
    (parseArr cs₂).bind fun pa =>
      match expectLit sepLit pa.2 with
      | some cs₃ =>
        (parseEntriesAux fuel cs₃).bind fun q => some ((pk.1, pa.1) :: q.1, q.2)
      | none =>
        (expectLit collClose pa.2).map fun rest => ([(pk.1, pa.1)], rest)

/-- Parse a whole collection in the file format. -/
def parseColl (cs : List Char) : Option (Collection × List Char) :=
  match cs with
  | [] => none
  | c :: cs' =>
    if c = '\x7b' then
      match cs' with
      | [] => none
      | c2 :: cs'' =>
        if c2 = '\x7d' then some ([], cs'')
        else if c2 = '\n' then parseEntriesAux (cs''.length + 1) cs''
        else none
    else none

/-- Every float field of every record in the collection is an exact
multiple of 10^-6, i.e. representable in the stored decimal form. -/
def CollectionStorable (d : Collection) : Prop :=
  ∀ p ∈ d, ∀ r ∈ p.2, IsStoredFloat r.rate_raw ∧ IsStoredFloat r.rate

theorem printEntry_length_pos (p : String × List Record) :
    1 ≤ (printEntry p).length := by
  rw [printEntry]
  simp only [List.length_append]
  have : entryIndent.length = 2 := by decide
  omega

theorem printEntries_length (d : Collection) : d.length ≤ (printEntries d).length := by
  induction d with
  | nil => simp [printEntries]
  | cons p d ih =>
    cases d with
    | nil =>
      rw [printEntries]
      simpa using printEntry_length_pos p
    | cons p2 d2 =>
      have hpr : printEntries (p :: p2 :: d2) =
          printEntry p ++ sepLit ++ printEntries (p2 :: d2) := rfl
      rw [hpr, List.length_append, List.length_append]
      have h1 := printEntry_length_pos p
      simp only [List.length_cons] at ih ⊢
      omega

theorem expectLit_sep_collClose (X : List Char) :
    expectLit sepLit (collClose ++ X) = none := rfl

theorem parseEntriesAux_print (d : Collection) (hne : d ≠ [])
    (hst : CollectionStorable d) (rest : List Char) :
    ∀ fuel, d.length ≤ fuel →
    parseEntriesAux fuel (printEntries d ++ (collClose ++ rest)) = some (d, rest) := by
  induction d with
  | nil => exact absurd rfl hne
  | cons p d ih =>
    intro fuel hfuel
    cases fuel with
    | zero => simp at hfuel
    | succ fuel =>
      cases d with
      | nil =>
        rw [printEntries, printEntry]
        simp only [List.append_assoc]
        rw [parseEntriesAux, expectLit_append]
        simp only [Option.some_bind]
        rw [parseStringLit_print]
        simp only [Option.some_bind]
        rw [expectLit_append]
        simp only [Option.some_bind]
        rw [parseArr_print p.2 (hst p (by simp)) _]
        simp only [Option.some_bind]
        rw [expectLit_sep_collClose, expectLit_append]
        rfl
      | cons p2 d2 =>
        have hpr : printEntries (p :: p2 :: d2) =
            printEntry p ++ sepLit ++ printEntries (p2 :: d2) := rfl
        rw [hpr, printEntry]
        simp only [List.append_assoc]
        rw [parseEntriesAux, expectLit_append]
        simp only [Option.some_bind]
        rw [parseStringLit_print]
        simp only [Option.some_bind]
        rw [expectLit_append]
        simp only [Option.some_bind]
        rw [parseArr_print p.2 (hst p (by simp)) _]
        simp only [Option.some_bind]
        rw [expectLit_append]
        show (parseEntriesAux fuel (printEntries (p2 :: d2) ++ (collClose ++ rest))).bind
          (fun q => some ((p.1, p.2) :: q.1, q.2)) = some (p :: p2 :: d2, rest)
        rw [ih (by simp) (fun x hx => hst x (List.mem_cons_of_mem p hx)) fuel
          (by simp only [List.length_cons] at hfuel ⊢; omega)]
        rfl

/-- C9: serializing a collection in the persisted file format (the JSON
object layout written by json.dump with ensure_ascii=False and indent=2,
non-ASCII kept literal) and parsing it back yields the same collection,
with the whole input consumed.  Float fields are the stored 6-decimal
values. -/
theorem C9_roundtrip (d : Collection) (hst : CollectionStorable d) :
    parseColl (printColl d) = some (d, []) := by
  cases d with
  | nil => rfl
  | cons p d' =>
    rw [show printColl (p :: d') =
      '\x7b' :: '\n' :: (printEntries (p :: d') ++ collClose) from rfl]
    show parseEntriesAux ((printEntries (p :: d') ++ collClose).length + 1)
      (printEntries (p :: d') ++ collClose) = some (p :: d', [])
    have hb := printEntries_length (p :: d')
    have h1 : printEntries (p :: d') ++ collClose =
        printEntries (p :: d') ++ (collClose ++ []) := by
      rw [List.append_nil]
    rw [h1]
    refine parseEntriesAux_print (p :: d') (by simp) hst [] _ ?_
    rw [List.length_append, List.length_append]
    omega

theorem C9_roundtrip_witness :
    parseColl (printColl [("tsum",
      [{ base := 1000, boost := 2000, final := 2000, rate_raw := 2, rate := 2 }])]) =
    some ([("tsum",
      [{ base := 1000, boost := 2000, final := 2000, rate_raw := 2, rate := 2 }])], []) := by
  refine C9_roundtrip _ ?_
  intro p hp r hr
  rw [List.mem_singleton] at hp
  subst hp
  rw [List.mem_singleton] at hr
  subst hr
  exact ⟨⟨2000000, by norm_num⟩, ⟨2000000, by norm_num⟩⟩

theorem C8_collection_invariant_witness :
    containsKey
      (deleteLatest [("a", [({ base := 1000, boost := 2000, final := 2000, rate_raw := 2, rate := 2 } : Record)])] "a")
      "a" = false :=
  (C8_collection_invariant
    [("a", [{ base := 1000, boost := 2000, final := 2000, rate_raw := 2, rate := 2 }])]
    "a" { base := 1, boost := 1, final := 1, rate_raw := 1, rate := 1 }
    (by intro p hp; rw [List.mem_singleton] at hp; subst hp; simp)).2.2
    (by simp) _ (by rw [lookupRecords]; rfl)
